import Mathlib

/-!
# Verification of the rain-window aggregation in `today.js`

Shallow embedding of `groupByTimeSlots` and `formatRainBlocks` from
`src/today.js` of the `weather-forecast-mines` repository, together with
proofs of the specified properties of the aggregation algorithm.

An hourly forecast sample carries a Unix timestamp `dt` (an integer) and a
precipitation probability `pop` (a real number in `[0,1]`, embedded as a
rational).  Probabilities and timestamps are modelled exactly; the constant
`0.4` of the source is the rational `2/5`, `7200` and the window size `4`
are literal.
-/

namespace TodayJs

/-- One hourly forecast sample: `dt` is the Unix timestamp, `pop` the
precipitation probability.  Mirrors the fields of the objects in
`data.hourly` that `groupByTimeSlots` reads. -/
structure Sample where
  dt : Int
  pop : ℚ
  deriving DecidableEq, Repr

instance : Inhabited Sample := ⟨⟨0, 0⟩⟩

/-- `a[0].dt` of a block, as used by the comparator of the trailing
`blocks.sort((a, b) => a[0].dt - b[0].dt)`. -/
def blockStart (b : List Sample) : Int := b.headI.dt

/-- `block[block.length - 1].dt` of a block (the timestamp of its last
member). -/
def blockEnd (b : List Sample) : Int := (b.getLastD default).dt

/-- The loop body of `groupByTimeSlots` (src/today.js lines 36-53): a
left-to-right scan over `hourlyData` carrying the open `block` and the
accumulated `blocks`.  A sample with `pop < 0.4` is skipped (`continue`);
otherwise, if the open block is empty the sample starts it, and if not,
the sample is pushed exactly when `(h.dt - last.dt) <= 7200 &&
block.length < 4`, else the open block is closed and a new one opened
with the sample.  At the end a non-empty open block is closed. -/
def groupAux : List Sample → List Sample → List (List Sample) → List (List Sample)
  | [], block, blocks =>
    match block with
    | [] => blocks
    | b0 :: bs => blocks ++ [b0 :: bs]
  | h :: rest, block, blocks =>
    if h.pop < (2 : ℚ)/5 then
      groupAux rest block blocks
    else
      match block with
      | [] => groupAux rest [h] blocks
      | b0 :: bs =>
        let last := (b0 :: bs).getLast (List.cons_ne_nil b0 bs)
        if h.dt - last.dt ≤ 7200 ∧ (b0 :: bs).length < 4 then
          groupAux rest ((b0 :: bs) ++ [h]) blocks
        else
          groupAux rest [h] (blocks ++ [b0 :: bs])

/-- `groupByTimeSlots` (src/today.js lines 32-55): the scan followed by the
stable sort `blocks.sort((a, b) => a[0].dt - b[0].dt)`. -/
def groupByTimeSlots (hourlyData : List Sample) : List (List Sample) :=
  (groupAux hourlyData [] []).mergeSort (fun a b => decide (blockStart a ≤ blockStart b))

/-- The average-probability computation of `formatRainBlocks`
(src/today.js line 61): `Math.round(block.reduce((sum, h) => sum + h.pop, 0)
/ block.length * 100)`.  `Math.round` rounds half-way cases up, which is
exactly `round` on `ℚ` (`⌊x + 1/2⌋`). -/
def avgProb (block : List Sample) : Int :=
  round ((block.foldl (fun sum h => sum + h.pop) 0) / (block.length : ℚ) * 100)

/-- `formatRainBlocks` (src/today.js lines 57-64), with the locale time
rendering `getTime` abstracted away: each block is mapped to the data of
its display line — start timestamp `block[0].dt`, end timestamp
`block[block.length - 1].dt`, and the rounded average probability
percentage. -/
def formatRainBlocks (blocks : List (List Sample)) : List (Int × Int × Int) :=
  blocks.map fun block =>
    (block.headI.dt, (block.getLastD default).dt, avgProb block)

/-- A qualifying sample: precipitation probability meets or exceeds the
threshold `0.4` (spec, Glossary). -/
def qualifies (h : Sample) : Bool := decide ((2 : ℚ)/5 ≤ h.pop)

/-- Scan described by the spec (spec-side, for refinement claim C1): a
single left-to-right scan over the qualifying samples only, in which a new
window starts when no window is open, when the gap from the last window
member exceeds `7200`, or when the window already holds `4` samples; on a
break the open window is appended and a new window opened with the current
sample; at the end a non-empty open window is appended. -/
def specScan : List Sample → List Sample → List (List Sample) → List (List Sample)
  | [], w, out =>
    match w with
    | [] => out
    | w0 :: ws => out ++ [w0 :: ws]
  | s :: rest, w, out =>
    match w with
    | [] => specScan rest [s] out
    | w0 :: ws =>
      let last := (w0 :: ws).getLast (List.cons_ne_nil w0 ws)
      if 7200 < s.dt - last.dt ∨ (w0 :: ws).length = 4 then
        specScan rest [s] (out ++ [w0 :: ws])
      else
        specScan rest ((w0 :: ws) ++ [s]) out

/-- The aggregation as worded by the spec: the scan applied to the
qualifying subsequence. -/
def groupIntoWindowsSpec (l : List Sample) : List (List Sample) :=
  specScan (l.filter qualifies) [] []

/-- A structurally sound block: non-empty, at most 4 members, consecutive
members at most 7200 seconds apart, and every member qualifying. -/
def goodBlock (b : List Sample) : Prop :=
  b ≠ [] ∧ b.length ≤ 4 ∧ b.Chain' (fun a c => c.dt - a.dt ≤ 7200)
    ∧ ∀ s ∈ b, ¬ s.pop < (2 : ℚ)/5

lemma headI_mem {b : List Sample} (h : b ≠ []) : b.headI ∈ b := by
  cases b with
  | nil => exact absurd rfl h
  | cons a t => simp [List.headI]

lemma qualifies_eq_false {h : Sample} (hpop : h.pop < (2 : ℚ)/5) :
    qualifies h = false := by
  simp only [qualifies, decide_eq_false_iff_not, not_le]
  exact hpop

lemma qualifies_eq_true {h : Sample} (hpop : ¬ h.pop < (2 : ℚ)/5) :
    qualifies h = true := by
  simp only [qualifies, decide_eq_true_eq]
  exact le_of_not_lt hpop

/-- The members of the scan result, in order: the already closed blocks,
then the open block, then the qualifying part of the remaining input. -/
lemma groupAux_flatten (l : List Sample) :
    ∀ block blocks, (groupAux l block blocks).flatten
      = blocks.flatten ++ block ++ l.filter qualifies := by
  induction l with
  | nil =>
    intro block blocks
    cases block <;> simp [groupAux]
  | cons h rest ih =>
    intro block blocks
    by_cases hpop : h.pop < (2 : ℚ)/5
    · simp only [groupAux, if_pos hpop, List.filter_cons,
        qualifies_eq_false hpop, ih]
      simp
    · cases block with
      | nil =>
        simp only [groupAux, if_neg hpop, List.filter_cons,
          qualifies_eq_true hpop, ih]
        simp
      | cons b0 bs =>
        simp only [groupAux, if_neg hpop]
        split
        · rw [ih]
          simp [List.filter_cons, qualifies_eq_true hpop]
        · rw [ih]
          simp [List.filter_cons, qualifies_eq_true hpop]

/-- Every block the scan produces is structurally sound. -/
lemma groupAux_good (l : List Sample) :
    ∀ block blocks, (∀ b ∈ blocks, goodBlock b) →
      (block = [] ∨ goodBlock block) →
      ∀ b ∈ groupAux l block blocks, goodBlock b := by
  induction l with
  | nil =>
    intro block blocks hbs hb b hmem
    cases block with
    | nil => exact hbs b (by simpa [groupAux] using hmem)
    | cons b0 bs =>
      simp only [groupAux, List.mem_append, List.mem_singleton] at hmem
      rcases hmem with hmem | rfl
      · exact hbs b hmem
      · exact hb.resolve_left (by simp)
  | cons h rest ih =>
    intro block blocks hbs hb b hmem
    by_cases hpop : h.pop < (2 : ℚ)/5
    · simp only [groupAux, if_pos hpop] at hmem
      exact ih block blocks hbs hb b hmem
    · cases block with
      | nil =>
        simp only [groupAux, if_neg hpop] at hmem
        refine ih [h] blocks hbs (Or.inr ?_) b hmem
        exact ⟨by simp, by simp, by simp, by simpa using hpop⟩
      | cons b0 bs =>
        have hgood : goodBlock (b0 :: bs) := hb.resolve_left (by simp)
        simp only [groupAux, if_neg hpop] at hmem
        split at hmem
        · rename_i hcond
          refine ih _ blocks hbs (Or.inr ?_) b hmem
          refine ⟨by simp, ?_, ?_, ?_⟩
          · have := hcond.2
            simp only [List.length_append, List.length_singleton]
            omega
          · rw [List.chain'_append]
            refine ⟨hgood.2.2.1, List.chain'_singleton _, ?_⟩
            intro x hx y hy
            rw [List.getLast?_eq_getLast _ (List.cons_ne_nil b0 bs)] at hx
            simp only [Option.mem_def, Option.some.injEq] at hx
            simp only [List.head?_cons, Option.mem_def, Option.some.injEq] at hy
            subst hx; subst hy
            exact hcond.1
          · intro s hs
            rcases List.mem_append.1 hs with hs | hs
            · exact hgood.2.2.2 s hs
            · simp only [List.mem_singleton] at hs
              subst hs; exact hpop
        · refine ih [h] (blocks ++ [b0 :: bs]) ?_ (Or.inr ?_) b hmem
          · intro c hc
            rcases List.mem_append.1 hc with hc | hc
            · exact hbs c hc
            · simp only [List.mem_singleton] at hc
              subst hc; exact hgood
          · exact ⟨by simp, by simp, by simp, by simpa using hpop⟩

/-- A pairwise relation between the timestamps of all scan members
transfers to the blocks' start timestamps. -/
lemma pairwise_blockStart_of_flatten {R : Int → Int → Prop}
    {L : List (List Sample)} (hne : ∀ b ∈ L, b ≠ [])
    (h : L.flatten.Pairwise (fun a c => R a.dt c.dt)) :
    L.Pairwise (fun b1 b2 => R (blockStart b1) (blockStart b2)) := by
  have h2 := (List.pairwise_flatten.1 h).2
  exact h2.imp_of_mem fun hm1 hm2 hx =>
    hx _ (headI_mem (hne _ hm1)) _ (headI_mem (hne _ hm2))

/-- A pairwise relation between the timestamps of the input samples
transfers to the flattened scan result. -/
lemma groupAux_pairwise_flatten {R : Int → Int → Prop} {l : List Sample}
    (h : l.Pairwise (fun a c => R a.dt c.dt)) :
    (groupAux l [] []).flatten.Pairwise (fun a c => R a.dt c.dt) := by
  rw [groupAux_flatten]
  simpa using List.Pairwise.filter qualifies h

lemma groupAux_ne_nil {l : List Sample} :
    ∀ b ∈ groupAux l [] [], b ≠ [] := fun b hb =>
  (groupAux_good l [] [] (by simp) (Or.inl rfl) b hb).1

/-- On input in non-decreasing timestamp order the scan already produces
the blocks sorted by start timestamp, so the trailing
`blocks.sort((a, b) => a[0].dt - b[0].dt)` is the identity. -/
lemma groupByTimeSlots_eq_groupAux {l : List Sample}
    (hs : l.Pairwise (fun a c => a.dt ≤ c.dt)) :
    groupByTimeSlots l = groupAux l [] [] := by
  apply List.mergeSort_of_sorted
  have hp := pairwise_blockStart_of_flatten groupAux_ne_nil
    (groupAux_pairwise_flatten (R := (· ≤ ·)) hs)
  exact hp.imp fun hle => by simpa using hle

/-- The relation between two adjacent blocks of the result: the earlier
one closed only because it was full or because the gap to the next
qualifying sample exceeded 7200 seconds. -/
def closeCond (b1 b2 : List Sample) : Prop :=
  b1.length = 4 ∨ 7200 < blockStart b2 - blockEnd b1

/-- Every closed block was closed for a reason: adjacent blocks of the
scan result satisfy `closeCond`. -/
lemma groupAux_closeCond (l : List Sample) :
    ∀ block blocks, (block = [] → blocks = []) → block.length ≤ 4 →
      List.Chain' closeCond (blocks ++ [block]) →
      List.Chain' closeCond (groupAux l block blocks) := by
  induction l with
  | nil =>
    intro block blocks h0 hlen hch
    cases block with
    | nil => simp [groupAux, h0 rfl]
    | cons b0 bs => simpa [groupAux] using hch
  | cons h rest ih =>
    intro block blocks h0 hlen hch
    by_cases hpop : h.pop < (2 : ℚ)/5
    · simp only [groupAux, if_pos hpop]
      exact ih block blocks h0 hlen hch
    · cases block with
      | nil =>
        simp only [groupAux, if_neg hpop]
        refine ih [h] blocks (by simp) (by simp) ?_
        rw [h0 rfl]
        simp
      | cons b0 bs =>
        simp only [groupAux, if_neg hpop]
        split
        · rename_i hcond
          refine ih _ blocks (by simp) ?_ ?_
          · simp only [List.length_append, List.length_singleton]
            have := hcond.2
            simp only [List.length_cons] at this ⊢
            omega
          · rw [List.chain'_append] at hch ⊢
            refine ⟨hch.1, List.chain'_singleton _, ?_⟩
            intro x hx y hy
            simp only [List.head?_cons, Option.mem_def, Option.some.injEq] at hy
            subst hy
            have := hch.2.2 x hx (b0 :: bs) (by simp)
            simpa [closeCond, blockStart, List.headI] using this
        · rename_i hcond
          refine ih [h] (blocks ++ [b0 :: bs]) (by simp) (by simp) ?_
          rw [List.chain'_append]
          refine ⟨hch, List.chain'_singleton _, ?_⟩
          intro x hx y hy
          simp only [List.getLast?_concat, Option.mem_def, Option.some.injEq] at hx
          simp only [List.head?_cons, Option.mem_def, Option.some.injEq] at hy
          subst hx; subst hy
          rw [not_and_or, not_le, not_lt] at hcond
          simp only [List.length_cons] at hlen
          rcases hcond with hgap | hfull
          · right
            have hend : blockEnd (b0 :: bs)
                = ((b0 :: bs).getLast (List.cons_ne_nil b0 bs)).dt := by
              simp [blockEnd, List.getLastD_eq_getLast?,
                List.getLast?_eq_getLast _ (List.cons_ne_nil b0 bs)]
            simpa [closeCond, blockStart, List.headI, hend] using hgap
          · left
            simp only [List.length_cons] at hfull ⊢
            omega

/-- The spec's scan over the qualifying subsequence computes exactly the
source's scan (which skips non-qualifying samples inline): the source's
push guard `gap <= 7200 && length < 4` is the negation of the spec's break
guard `gap > 7200 || length == 4` as long as the open window never exceeds
4 members. -/
lemma specScan_eq_groupAux (l : List Sample) :
    ∀ block blocks, block.length ≤ 4 →
      specScan (l.filter qualifies) block blocks = groupAux l block blocks := by
  induction l with
  | nil =>
    intro block blocks _
    cases block <;> simp [specScan, groupAux]
  | cons h rest ih =>
    intro block blocks hlen
    by_cases hpop : h.pop < (2 : ℚ)/5
    · rw [List.filter_cons, qualifies_eq_false hpop]
      simp only [groupAux, if_pos hpop, Bool.false_eq_true, if_neg]
      exact ih block blocks hlen
    · rw [List.filter_cons, qualifies_eq_true hpop]
      simp only [if_pos]
      cases block with
      | nil =>
        simp only [specScan, groupAux, if_neg hpop]
        exact ih [h] blocks (by simp)
      | cons b0 bs =>
        simp only [specScan, groupAux, if_neg hpop]
        by_cases hB : h.dt - ((b0 :: bs).getLast (List.cons_ne_nil b0 bs)).dt ≤ 7200
            ∧ (b0 :: bs).length < 4
        · have hA : ¬ (7200 < h.dt - ((b0 :: bs).getLast (List.cons_ne_nil b0 bs)).dt
              ∨ (b0 :: bs).length = 4) := by
            obtain ⟨h1, h2⟩ := hB
            simp only [List.length_cons] at h2 ⊢
            omega
          rw [if_neg hA, if_pos hB]
          refine ih _ blocks ?_
          simp only [List.length_append, List.length_singleton]
          have := hB.2
          omega
        · have hA : 7200 < h.dt - ((b0 :: bs).getLast (List.cons_ne_nil b0 bs)).dt
              ∨ (b0 :: bs).length = 4 := by
            rw [not_and_or, not_le, not_lt] at hB
            simp only [List.length_cons] at hB hlen ⊢
            omega
          rw [if_pos hA, if_neg hB]
          exact ih [h] _ (by simp)

/-- Discarded samples are invisible to the scan: running it on the
qualifying subsequence gives the same result. -/
lemma groupAux_filter (l : List Sample) :
    ∀ block blocks, groupAux (l.filter qualifies) block blocks
      = groupAux l block blocks := by
  induction l with
  | nil => intro block blocks; simp
  | cons h rest ih =>
    intro block blocks
    by_cases hpop : h.pop < (2 : ℚ)/5
    · rw [List.filter_cons, qualifies_eq_false hpop, if_neg Bool.false_ne_true]
      rw [ih block blocks]
      simp only [groupAux, if_pos hpop]
    · rw [List.filter_cons, qualifies_eq_true hpop]
      simp only [if_pos]
      cases block with
      | nil =>
        simp only [groupAux, if_neg hpop]
        exact ih [h] blocks
      | cons b0 bs =>
        simp only [groupAux, if_neg hpop]
        by_cases hB : h.dt - ((b0 :: bs).getLast (List.cons_ne_nil b0 bs)).dt ≤ 7200
            ∧ (b0 :: bs).length < 4
        · rw [if_pos hB, if_pos hB]
          exact ih _ blocks
        · rw [if_neg hB, if_neg hB]
          exact ih [h] _

/-- If every sample is below the threshold, the scan adds nothing. -/
lemma groupAux_all_below {l : List Sample}
    (h : ∀ s ∈ l, s.pop < (2 : ℚ)/5) :
    ∀ block blocks, groupAux l block blocks = groupAux [] block blocks := by
  induction l with
  | nil => intro block blocks; rfl
  | cons x rest ih =>
    intro block blocks
    have hx : x.pop < (2 : ℚ)/5 := h x (by simp)
    simp only [groupAux, if_pos hx]
    exact ih (fun s hs => h s (by simp [hs])) block blocks

/-- A single qualifying sample produces a single one-sample window. -/
lemma groupByTimeSlots_single {s : Sample} (h : ¬ s.pop < (2 : ℚ)/5) :
    groupByTimeSlots [s] = [[s]] := by
  rw [groupByTimeSlots]
  have : groupAux [s] [] [] = [[s]] := by
    simp only [groupAux, if_neg h, List.nil_append]
  rw [this, List.mergeSort_singleton]

/-- `reduce((sum, h) => sum + h.pop, 0)` is the sum of the probabilities. -/
lemma foldl_pop_eq_sum (b : List Sample) :
    b.foldl (fun sum h => sum + h.pop) 0 = (b.map Sample.pop).sum := by
  suffices h : ∀ a : ℚ, b.foldl (fun sum h => sum + h.pop) a = a + (b.map Sample.pop).sum by
    simpa using h 0
  induction b with
  | nil => intro a; simp
  | cons x t ih =>
    intro a
    simp only [List.foldl_cons, List.map_cons, List.sum_cons, ih]
    ring

/-- The display value as worded by the spec: the arithmetic mean of the
member probabilities, multiplied by 100 and rounded to the nearest
integer. -/
def specAvgDisplay (b : List Sample) : Int :=
  round ((b.map Sample.pop).sum / (b.length : ℚ) * 100)

/-- **C1.** For every input in non-decreasing timestamp order,
`groupByTimeSlots` computes exactly the single left-to-right scan over the
qualifying samples (`pop >= 0.4`) in which a new window starts when no
window is open, when the current sample's timestamp minus the last window
member's timestamp exceeds 7200 seconds, or when the window already holds
4 samples; on a break the open window is appended to the result and a new
window opened containing only the current sample, and after the scan any
non-empty open window is appended. -/
theorem groupByTimeSlots_eq_spec_scan (l : List Sample)
    (hs : l.Pairwise fun a c => a.dt ≤ c.dt) :
    groupByTimeSlots l = groupIntoWindowsSpec l := by
  rw [groupByTimeSlots_eq_groupAux hs, groupIntoWindowsSpec]
  exact (specScan_eq_groupAux l [] [] (by simp)).symm

theorem groupByTimeSlots_eq_spec_scan_witness :
    groupByTimeSlots [⟨0, (1 : ℚ)/2⟩, ⟨3600, 3/5⟩, ⟨7200, 3/10⟩, ⟨18000, 7/10⟩]
      = groupIntoWindowsSpec [⟨0, (1 : ℚ)/2⟩, ⟨3600, 3/5⟩, ⟨7200, 3/10⟩, ⟨18000, 7/10⟩] :=
  groupByTimeSlots_eq_spec_scan _ (by decide)

/-- **C2.** Below-threshold samples are invisible to the aggregator: no
returned window contains a sample with `pop < 0.4`; a sample whose
probability is exactly the threshold qualifies; and the output on any
input equals the output on the same input with every below-threshold
sample deleted. -/
theorem groupByTimeSlots_threshold_invisible (l : List Sample) :
    (∀ b ∈ groupByTimeSlots l, ∀ s ∈ b, ¬ s.pop < (2 : ℚ)/5) ∧
    (∀ s : Sample, s.pop = (2 : ℚ)/5 → groupByTimeSlots [s] = [[s]]) ∧
    groupByTimeSlots (l.filter qualifies) = groupByTimeSlots l := by
  refine ⟨?_, ?_, ?_⟩
  · intro b hb s hs
    rw [groupByTimeSlots, List.mem_mergeSort] at hb
    exact (groupAux_good l [] [] (by simp) (Or.inl rfl) b hb).2.2.2 s hs
  · intro s hs
    exact groupByTimeSlots_single (by rw [hs]; exact lt_irrefl _)
  · rw [groupByTimeSlots, groupByTimeSlots, groupAux_filter]

theorem groupByTimeSlots_threshold_invisible_witness :
    groupByTimeSlots [(⟨0, (2 : ℚ)/5⟩ : Sample)] = [[⟨0, (2 : ℚ)/5⟩]] :=
  (groupByTimeSlots_threshold_invisible []).2.1 ⟨0, (2 : ℚ)/5⟩ rfl

/-- **C3.** For every input, every window returned by `groupByTimeSlots`
contains between 1 and 4 member samples, inclusive. -/
theorem groupByTimeSlots_size_bounds (l : List Sample) :
    ∀ b ∈ groupByTimeSlots l, 1 ≤ b.length ∧ b.length ≤ 4 := by
  intro b hb
  rw [groupByTimeSlots, List.mem_mergeSort] at hb
  have hgood := groupAux_good l [] [] (by simp) (Or.inl rfl) b hb
  exact ⟨List.length_pos.2 hgood.1, hgood.2.1⟩

theorem groupByTimeSlots_size_bounds_witness :
    1 ≤ ([(⟨0, (1 : ℚ)/2⟩ : Sample)] : List Sample).length ∧
      ([(⟨0, (1 : ℚ)/2⟩ : Sample)] : List Sample).length ≤ 4 := by
  refine groupByTimeSlots_size_bounds [⟨0, (1 : ℚ)/2⟩] [⟨0, (1 : ℚ)/2⟩] ?_
  rw [groupByTimeSlots_single (by norm_num)]
  simp

/-- **C4.** For every input in non-decreasing timestamp order, within
every returned window each pair of consecutive member samples is at most
7200 seconds apart. -/
theorem groupByTimeSlots_gap_bound (l : List Sample)
    (_hs : l.Pairwise fun a c => a.dt ≤ c.dt) :
    ∀ b ∈ groupByTimeSlots l, b.Chain' fun a c => c.dt - a.dt ≤ 7200 := by
  intro b hb
  rw [groupByTimeSlots, List.mem_mergeSort] at hb
  exact (groupAux_good l [] [] (by simp) (Or.inl rfl) b hb).2.2.1

theorem groupByTimeSlots_gap_bound_witness :
    ([⟨0, (1 : ℚ)/2⟩, ⟨3600, 3/5⟩] : List Sample).Chain'
      (fun a c => c.dt - a.dt ≤ 7200) := by
  refine groupByTimeSlots_gap_bound [⟨0, (1 : ℚ)/2⟩, ⟨3600, 3/5⟩] (by decide)
    [⟨0, (1 : ℚ)/2⟩, ⟨3600, 3/5⟩] ?_
  have h : groupByTimeSlots [⟨0, (1 : ℚ)/2⟩, ⟨3600, 3/5⟩]
      = [[⟨0, (1 : ℚ)/2⟩, ⟨3600, 3/5⟩]] := by
    rw [groupByTimeSlots_eq_groupAux (by decide)]
    norm_num [groupAux]
  rw [h]
  simp

/-- **C5.** For every input in strictly increasing timestamp order (non-
decreasing with unique timestamps), the returned windows are in strictly
ascending order of their first member's timestamp, no sample belongs to
two windows, and concatenating the windows' members in output order
yields exactly the qualifying subsequence of the input. -/
theorem groupByTimeSlots_partition (l : List Sample)
    (hs : l.Pairwise fun a c => a.dt < c.dt) :
    ((groupByTimeSlots l).Pairwise fun b1 b2 => blockStart b1 < blockStart b2) ∧
    ((groupByTimeSlots l).Pairwise fun b1 b2 => ∀ s ∈ b1, s ∉ b2) ∧
    (groupByTimeSlots l).flatten = l.filter qualifies := by
  have hle : l.Pairwise fun a c => a.dt ≤ c.dt := hs.imp fun h => le_of_lt h
  rw [groupByTimeSlots_eq_groupAux hle]
  have hflat := groupAux_pairwise_flatten (R := (· < ·)) hs
  refine ⟨pairwise_blockStart_of_flatten groupAux_ne_nil hflat, ?_, ?_⟩
  · have h2 := (List.pairwise_flatten.1 hflat).2
    refine h2.imp ?_
    intro b1 b2 hx s hs1 hs2
    exact absurd (hx s hs1 s hs2) (lt_irrefl _)
  · rw [groupAux_flatten]
    simp

theorem groupByTimeSlots_partition_witness :
    (groupByTimeSlots [⟨0, (1 : ℚ)/2⟩, ⟨3600, 1/5⟩, ⟨18000, 7/10⟩]).flatten
      = ([⟨0, (1 : ℚ)/2⟩, ⟨3600, 1/5⟩, ⟨18000, 7/10⟩] : List Sample).filter qualifies :=
  (groupByTimeSlots_partition _ (by decide)).2.2

/-- **C6.** For every window, the displayed average probability equals
the arithmetic mean of the member samples' precipitation probabilities,
multiplied by 100 and rounded to the nearest integer. -/
theorem formatRainBlocks_average (blocks : List (List Sample)) :
    formatRainBlocks blocks
      = blocks.map fun b => (b.headI.dt, (b.getLastD default).dt, specAvgDisplay b) := by
  unfold formatRainBlocks
  refine List.map_congr_left ?_
  intro b _
  simp [avgProb, specAvgDisplay, foldl_pop_eq_sum]

/-- **C7.** On the input with timestamps `[0, 3600, 7200, 18000]` and
probabilities `[0.5, 0.6, 0.3, 0.7]`, `groupByTimeSlots` returns exactly
the windows `[0, 3600]` and `[18000]`, displayed with average
probabilities 55% and 70%. -/
theorem groupByTimeSlots_example :
    groupByTimeSlots [⟨0, (1 : ℚ)/2⟩, ⟨3600, 3/5⟩, ⟨7200, 3/10⟩, ⟨18000, 7/10⟩]
      = [[⟨0, (1 : ℚ)/2⟩, ⟨3600, 3/5⟩], [⟨18000, 7/10⟩]] ∧
    formatRainBlocks
        (groupByTimeSlots [⟨0, (1 : ℚ)/2⟩, ⟨3600, 3/5⟩, ⟨7200, 3/10⟩, ⟨18000, 7/10⟩])
      = [(0, 3600, 55), (18000, 18000, 70)] := by
  have h : groupByTimeSlots [⟨0, (1 : ℚ)/2⟩, ⟨3600, 3/5⟩, ⟨7200, 3/10⟩, ⟨18000, 7/10⟩]
      = [[⟨0, (1 : ℚ)/2⟩, ⟨3600, 3/5⟩], [⟨18000, 7/10⟩]] := by
    rw [groupByTimeSlots_eq_groupAux (by decide)]
    norm_num [groupAux]
  refine ⟨h, ?_⟩
  rw [h]
  norm_num [formatRainBlocks, avgProb, List.headI, List.getLastD]

/-- **C8.** Windows are greedy-maximal: on input in non-decreasing
timestamp order a window closes only when forced, so any two adjacent
windows of the result satisfy: the earlier window already holds 4
samples, or the gap from its last member to the next window's first
member exceeds 7200 seconds. -/
theorem groupByTimeSlots_greedy_maximal (l : List Sample)
    (hs : l.Pairwise fun a c => a.dt ≤ c.dt) :
    (groupByTimeSlots l).Chain' closeCond := by
  rw [groupByTimeSlots_eq_groupAux hs]
  exact groupAux_closeCond l [] [] (fun _ => rfl) (by simp) (by simp)

theorem groupByTimeSlots_greedy_maximal_witness :
    (groupByTimeSlots [⟨0, (1 : ℚ)/2⟩, ⟨3600, 1/2⟩, ⟨7200, 1/2⟩, ⟨10800, 1/2⟩,
        ⟨14400, 1/2⟩]).Chain' closeCond :=
  groupByTimeSlots_greedy_maximal _ (by decide)

/-- **C9.** Empty input gives the empty output; an input in which every
sample is below the threshold gives the empty output; and the function is
total (no exception) on an empty input, an all-below-threshold input, and
a single qualifying sample, where it returns the one-sample window. -/
theorem groupByTimeSlots_degenerate_inputs :
    groupByTimeSlots [] = [] ∧
    (∀ l : List Sample, (∀ s ∈ l, s.pop < (2 : ℚ)/5) → groupByTimeSlots l = []) ∧
    (∀ s : Sample, ¬ s.pop < (2 : ℚ)/5 → groupByTimeSlots [s] = [[s]]) := by
  have h0 : groupByTimeSlots [] = [] := by
    rw [groupByTimeSlots]
    rw [show groupAux [] [] [] = [] from rfl, List.mergeSort_nil]
  refine ⟨h0, ?_, fun s h => groupByTimeSlots_single h⟩
  intro l h
  rw [groupByTimeSlots, groupAux_all_below h]
  rw [show groupAux [] [] [] = [] from rfl, List.mergeSort_nil]

theorem groupByTimeSlots_degenerate_inputs_witness :
    groupByTimeSlots [(⟨0, (1 : ℚ)/4⟩ : Sample), ⟨3600, 3/10⟩] = [] :=
  groupByTimeSlots_degenerate_inputs.2.1 _ (by
    intro s hs
    fin_cases hs <;> norm_num)

end TodayJs
